import Mathlib

/-!
Shallow embedding of the `gosignal` Go package (hook.go, the typed
definitions file, and handler.go).

Modelling conventions:
* Go pointers to opaque callback bodies (`func(context.Context)`) and Go
  channels are represented by an identity token `Option Nat`; `none` models a
  Go `nil` pointer/channel.  The core never inspects bodies, only compares
  them against `nil`, so a token is a faithful representation.
* Go machine integers: `Order` is `uint16`, so its values lie in `[0, 65535]`;
  it is carried as a `Nat` and theorems carry the range hypothesis where it
  matters.  Exit codes (`int`) are carried as `Int`.
* The Go maps `map[string]*Function`, `map[string]*Notify` and
  `map[os.Signal]Hook` are modelled as lists keyed by name, in insertion
  order.  Go's map iteration order is unspecified; this embedding fixes it
  deterministically to insertion order.  Statements that depend on the
  iteration order (the ordering scan's tie-break) are therefore statements
  about this deterministic model of the map.
* Functions that can panic or fail to terminate in Go (`reorder`'s drain
  loops, the nil dereferences caused by `clear` keeping the slice length)
  return `Option`; `none` marks the executions on which the Go code panics
  or loops forever.
* The handler's channels (`sigCh`, `exitCh`) and the OS calls
  (`signal.Notify`, `signal.Reset`, `os.Exit`) are external collaborators;
  interception is modelled by the `capturing` list the Go code itself
  maintains, and hook execution / process termination are recorded as
  observable events.
-/

namespace GoSignal

/-- Identity token for a Go pointer or channel; `none` models Go `nil`. -/
abbrev Ptr := Option Nat

/-- `Function` from the typed definitions file: a registrable callback.
`func` models the `Func func(context.Context)` field (`none` = nil). -/
structure Function where
  func : Ptr
  name : String
  desc : String
  overwrite : Bool
  order : Nat
  concurrent : Bool
deriving DecidableEq

/-- `Notify` from the typed definitions file: a registrable channel signal.
`chan` models the mandatory signal channel, `doneChan` the optional
acknowledgement channel (`none` = nil). -/
structure Notify where
  chan : Ptr
  doneChan : Ptr
  name : String
  desc : String
  overwrite : Bool
  order : Nat
  nonBlocking : Bool
deriving DecidableEq

/-- The error values of hook.go (`ErrFunctionExists` etc.); the two
already-exists errors carry the offending name, as the wrapped
`fmt.Errorf("%w: %s", Err..., name)` does. -/
inductive HookError where
  | functionExists (name : String)
  | notifyExists (name : String)
  | functionNameEmpty
  | notifyNameEmpty
  | funcNil
  | chanNil
deriving DecidableEq

/-- The comparison used by the `reorder` scans: the functions loop uses
`function.Order <= lowest` (strict = false), the notifies loop uses
`notify.Order < lowest` (strict = true). -/
def cmpb (strict : Bool) (x y : Nat) : Bool :=
  if strict then decide (x < y) else decide (x ≤ y)

/-- The inner scan of `reorder`: starting from the accumulator
`(lowest, lowestName)` (initially `(math.MaxUint16, "")`), walk the map in
iteration order and record `(Order, Name)` of every entry that compares
against the running lowest. -/
def scanMin {α : Type} (o : α → Nat) (nmf : α → String) (strict : Bool) :
    List α → Nat × String → Nat × String
  | [], acc => acc
  | a :: rest, acc =>
      scanMin o nmf strict rest
        (cond (cmpb strict (o a) acc.1) (o a, nmf a) acc)

/-- `lowestName` after one full scan of the registry. -/
def selectName {α : Type} (o : α → Nat) (nmf : α → String) (strict : Bool)
    (m : List α) : String :=
  (scanMin o nmf strict m (65535, "")).2

/-- Go map lookup `m[nm]` (keys are unique in a Go map, so the first entry in
the model's iteration order with that name is the entry). -/
def lookupByName {α : Type} (nmf : α → String) : List α → String → Option α
  | [], _ => none
  | a :: rest, nm =>
      if nmf a == nm then some a else lookupByName nmf rest nm

/-- Go `delete(m, nm)`: remove the entry keyed `nm` (the first occurrence in
the model's iteration order; keys are unique in a Go map). -/
def eraseByName {α : Type} (nmf : α → String) : List α → String → List α
  | [], _ => []
  | a :: rest, nm => if nmf a == nm then rest else a :: eraseByName nmf rest nm

/-- One `reorder` drain loop (`for len(m) > 0 { scan; append m[lowestName];
delete(m, lowestName) }`).  When the scan selects a name that is not a key
(the notifies loop with every remaining `Order` equal to 65535), the Go loop
appends a nil entry, deletes nothing, and never terminates: that execution is
`none`.  The fuel argument is the initial map size; a successful selection
always removes one entry, so the fuel never runs out on executions the Go
code completes. -/
def drainAux {α : Type} (o : α → Nat) (nmf : α → String) (strict : Bool) :
    Nat → List α → Option (List α)
  | _, [] => some []
  | 0, _ :: _ => none
  | fuel + 1, a :: rest =>
      let m := a :: rest
      let nm := selectName o nmf strict m
      match lookupByName nmf m nm with
      | none => none
      | some b => (drainAux o nmf strict fuel (eraseByName nmf m nm)).map
          (fun l => b :: l)

/-- The `// order functons` loop of `reorder` (non-strict comparison). -/
def drainFunctions (m : List Function) : Option (List Function) :=
  drainAux (fun f => f.order) (fun f => f.name) false m.length m

/-- The `// order notifies` loop of `reorder` (strict comparison). -/
def drainNotifies (m : List Notify) : Option (List Notify) :=
  drainAux (fun n => n.order) (fun n => n.name) true m.length m

/-- Go map insert `m[x.name] = x`: replace the entry with the same key in
place, or append a new entry. -/
def insertByName {α : Type} (nmf : α → String) : List α → α → List α
  | [], x => [x]
  | g :: rest, x =>
      if nmf g == nmf x then x :: rest else g :: insertByName nmf rest x

/-- The `hook` struct of hook.go.  `functions`/`notifies` are the two
registries, `doReorder` the dirty flag, `functionOrder`/`notifyOrder` the
cached `[]*Function` / `[]*Notify` slices, whose elements are nilable
(`clear` on a Go slice zeroes the elements but keeps the length). -/
structure HookState where
  name : String
  desc : String
  functions : List Function
  notifies : List Notify
  doReorder : Bool
  functionOrder : List (Option Function)
  notifyOrder : List (Option Notify)
deriving DecidableEq

/-- `NewHook(name, desc)`: empty registries, clean flag, nil slices. -/
def NewHook (name desc : String) : HookState :=
  ⟨name, desc, [], [], false, [], []⟩

/-- `(*hook).reorder()`.  Returns `none` on the executions where the Go code
panics or loops forever: a drain loop that never terminates, or the restore
loops dereferencing a nil slice element left behind by `clear` (which zeroes
the old elements of `functionOrder`/`notifyOrder` but keeps the length, so
the rebuilt slice has a nil prefix whenever it was non-empty before).
On success the maps are rebuilt by the restore loops in sorted order. -/
def HookState.reorder (h : HookState) : Option HookState :=
  if h.doReorder = false then some h
  else
    let clearedF : List (Option Function) := h.functionOrder.map (fun _ => none)
    let clearedN : List (Option Notify) := h.notifyOrder.map (fun _ => none)
    match drainFunctions h.functions, drainNotifies h.notifies with
    | some fs, some ns =>
        let fOrd := clearedF ++ fs.map some
        let nOrd := clearedN ++ ns.map some
        if fOrd.all Option.isSome && nOrd.all Option.isSome then
          some { h with functions := fs, notifies := ns,
                        functionOrder := fOrd, notifyOrder := nOrd }
        else none
    | _, _ => none

/-- `(*hook).Exec(ctx)`.  Reorders (exclusively locked), then walks
`functionOrder` launching/invoking each body and `notifyOrder` sending each
signal, in slice order.  The Go method always returns a nil error; `none`
here marks the executions on which the Go code panics or loops forever
(inside `reorder`, or dereferencing a nil slice entry in the dispatch
loops).  The result carries the state after `reorder` together with the
dispatch traces: the Functions in launch/invocation order and the Notifies
in send order. -/
def HookState.Exec (h : HookState) :
    Option (HookState × List Function × List Notify) :=
  match h.reorder with
  | none => none
  | some h' =>
      if h'.functionOrder.all Option.isSome && h'.notifyOrder.all Option.isSome
      then some (h', h'.functionOrder.reduceOption, h'.notifyOrder.reduceOption)
      else none

/-- `(*hook).GetFunction(name)`: map lookup under a read lock; the method
never mutates the hook (hence the state-free type) and never errors. -/
def HookState.GetFunction (h : HookState) (nm : String) : Option Function :=
  lookupByName (fun f => f.name) h.functions nm

/-- `(*hook).GetNotify(name)`. -/
def HookState.GetNotify (h : HookState) (nm : String) : Option Notify :=
  lookupByName (fun n => n.name) h.notifies nm

/-- `(*hook).Function(function)`: validate, then insert-or-replace and mark
dirty.  Returns the error (if any) together with the resulting state. -/
def HookState.AddFunction (h : HookState) (f : Function) :
    Option HookError × HookState :=
  if f.name = "" then (some .functionNameEmpty, h)
  else if f.func = none then (some .funcNil, h)
  else if (lookupByName (fun g => g.name) h.functions f.name).isSome ∧
      f.overwrite = false then
    (some (.functionExists f.name), h)
  else
    (none, { h with doReorder := true,
                    functions := insertByName (fun g => g.name) h.functions f })

/-- `(*hook).Notify(notify)`. -/
def HookState.AddNotify (h : HookState) (n : Notify) :
    Option HookError × HookState :=
  if n.name = "" then (some .notifyNameEmpty, h)
  else if n.chan = none then (some .chanNil, h)
  else if (lookupByName (fun m => m.name) h.notifies n.name).isSome ∧
      n.overwrite = false then
    (some (.notifyExists n.name), h)
  else
    (none, { h with doReorder := true,
                    notifies := insertByName (fun m => m.name) h.notifies n })

/-- OS signal identifiers.  The three named constructors are the
termination-class signals handler.go switches on (`syscall.SIGINT`,
`syscall.SIGTERM`, `syscall.SIGQUIT`); `other n` stands for any further
`os.Signal`. -/
inductive Sig where
  | int
  | term
  | quit
  | other (n : Nat)
deriving DecidableEq

/-- `os.Signal.String()` on the signals above (Unix names), used only to
build the default hook names in `Gets`. -/
def sigString : Sig → String
  | .int => "interrupt"
  | .term => "terminated"
  | .quit => "quit"
  | .other n => "signal " ++ toString n

/-- The `switch sig { case syscall.SIGINT, syscall.SIGTERM, syscall.SIGQUIT }`
test of handler.go. -/
def isTermSig : Sig → Bool
  | .int => true
  | .term => true
  | .quit => true
  | .other _ => false

/-- The default termination signal set `setExit` intercepts, in source
order. -/
def termSigs : List Sig := [.int, .term, .quit]

/-- The `et` exit-type enum (`ExitTypeSignal`, `ExitTypeManual`). -/
inductive et where
  | signal
  | manual
deriving DecidableEq

/-- The `OSSignal` context value passed to hooks (handler.go).  In Go it is
built, stashed in the context, and possibly mutated before the hook runs;
here it is the value the hook observes. -/
structure OSSignal where
  signal : Option Sig
  exit : Bool
  exitType : et
  exitCode : Int
deriving DecidableEq

/-- The error values of handler.go. -/
inductive HandlerErr where
  | signalExists (s : Sig)
  | exitExists
  | hookNil
  | loopLocked
  | exitLocked
deriving DecidableEq

/-- The `handler` struct.  The channels `sigCh`/`exitCh` are delivery
plumbing between the OS and `Loop` and are not part of the routing state;
`capturing` is the list of signals currently intercepted (`signal.Notify`
has been called for exactly these). -/
structure HandlerState where
  exitHook : Option HookState
  hookMap : List (Sig × HookState)
  capturing : List Sig
  loopLock : Bool
  exitLock : Bool
deriving DecidableEq

/-- `newHandler()`: empty maps, no exit hook, no locks held. -/
def newHandler : HandlerState :=
  ⟨none, [], [], false, false⟩

/-- Go map lookup `h.hookMap[sig]`. -/
def lookupSig : List (Sig × HookState) → Sig → Option HookState
  | [], _ => none
  | p :: rest, sg => if p.1 = sg then some p.2 else lookupSig rest sg

/-- Observable events of the handler: a per-signal hook's `Exec` invocation
(with the `OSSignal` context the hook observes), the exit hook's `Exec`
invocation, and the final `os.Exit(code)`.  Hook bodies are opaque external
code; their internal behaviour is modelled by `HookState.Exec` above, while
the handler-level model records the invocations. -/
inductive Ev where
  | hookExec (hk : HookState) (s : OSSignal)
  | exitHookExec (s : OSSignal)
  | terminate (code : Int)
deriving DecidableEq

def Ev.isExitHookExec : Ev → Bool
  | .exitHookExec _ => true
  | _ => false

def Ev.isTerminate : Ev → Bool
  | .terminate _ => true
  | _ => false

/-- The body of the `for _, sig := range [...]` loop in `setExit`: intercept
`sg` (`signal.Notify` + append to `capturing`) unless already intercepted. -/
def captureSig (st : HandlerState) (sg : Sig) : HandlerState :=
  if sg ∈ st.capturing then st
  else { st with capturing := st.capturing ++ [sg] }

/-- `(*handler).setExit(hook)` (the lock-free core; `SetExit` is the locked
wrapper).  The nilable `Hook` interface argument is an `Option`. -/
def HandlerState.setExit (h : HandlerState) (hook : Option HookState) :
    Option HandlerErr × HandlerState :=
  match hook with
  | none => (some .hookNil, h)
  | some hk =>
      if h.exitHook.isSome then (some .exitExists, h)
      else
        let h1 := { h with exitHook := some hk }
        (none, termSigs.foldl captureSig h1)

/-- `(*handler).SetExit(hook)`: `setExit` under the handler mutex (the
sequential model makes each call atomic). -/
def HandlerState.SetExit (h : HandlerState) (hook : Option HookState) :
    Option HandlerErr × HandlerState :=
  h.setExit hook

/-- `(*handler).GetExit()`. -/
def HandlerState.GetExit (h : HandlerState) : Option HookState :=
  h.exitHook

/-- `(*handler).GetsExit()`: lazily create and register the default exit hook
when none is set, then return `h.exitHook`. -/
def HandlerState.GetsExit (h : HandlerState) : Option HookState × HandlerState :=
  let h' := if h.exitHook = none
    then (h.setExit (some (NewHook "exit" "Handle program exit"))).2
    else h
  (h'.exitHook, h')

/-- `(*handler).set(sig, hook)` (the lock-free core). -/
def HandlerState.set (h : HandlerState) (sg : Sig) (hook : Option HookState) :
    Option HandlerErr × HandlerState :=
  match hook with
  | none => (some .hookNil, h)
  | some hk =>
      if (lookupSig h.hookMap sg).isSome then (some (.signalExists sg), h)
      else
        let h1 := { h with hookMap := h.hookMap ++ [(sg, hk)] }
        (none, captureSig h1 sg)

/-- `(*handler).Set(sig, hook)`. -/
def HandlerState.Set (h : HandlerState) (sg : Sig) (hook : Option HookState) :
    Option HandlerErr × HandlerState :=
  h.set sg hook

/-- `(*handler).Get(sig)`. -/
def HandlerState.Get (h : HandlerState) (sg : Sig) : Option HookState :=
  lookupSig h.hookMap sg

/-- The default hook `Gets` registers for a signal:
`NewHook("signal."+strings.ReplaceAll(sig.String()," ","_"),
"Handle "+sig.String()+" signal")`. -/
def defaultSignalHook (sg : Sig) : HookState :=
  NewHook ("signal." ++ (sigString sg).replace " " "_")
    ("Handle " ++ sigString sg ++ " signal")

/-- `(*handler).Gets(sig)`: return the registered hook, or register the
default hook for `sig` and return `h.hookMap[sig]`. -/
def HandlerState.Gets (h : HandlerState) (sg : Sig) :
    Option HookState × HandlerState :=
  match lookupSig h.hookMap sg with
  | some hk => (some hk, h)
  | none =>
      let h' := (h.set sg (some (defaultSignalHook sg))).2
      (lookupSig h'.hookMap sg, h')

/-- `(*handler).exit(code, t, sig)`: the one-shot exit sequence.  A call with
the latch already set returns immediately.  The first call sets the latch,
best-effort notifies `exitCh`, drops `loopLock`, executes the exit hook (if
set) with the exit context, resets the intercepted signals, and calls
`os.Exit(code)` — recorded as the `terminate` event, after which the Go
process runs nothing further. -/
def HandlerState.exit (h : HandlerState) (code : Int) (t : et)
    (sg : Option Sig) : HandlerState × List Ev :=
  if h.exitLock then (h, [])
  else
    let h1 := { h with exitLock := true, loopLock := false }
    let s : OSSignal := { signal := sg, exit := true, exitType := t,
                          exitCode := code }
    (h1, (if h.exitHook.isSome then [Ev.exitHookExec s] else [])
         ++ [Ev.terminate code])

/-- `(*handler).Exit(code)`: the manual trigger (`ExitTypeManual`, nil
signal), under the mutex. -/
def HandlerState.Exit (h : HandlerState) (code : Int) :
    HandlerState × List Ev :=
  h.exit code .manual none

/-- `(*handler).handleSignal(sig)` (runs under the handler mutex): no-op when
exit is underway; otherwise build the `OSSignal` context (`Exit`/`ExitCode`
preset for the termination-class signals), run the hook registered for this
exact signal, and, for a termination-class signal, drive the exit
sequence with code 0. -/
def HandlerState.handleSignal (h : HandlerState) (sg : Sig) :
    HandlerState × List Ev :=
  if h.exitLock then (h, [])
  else
    let s0 : OSSignal := { signal := some sg, exit := false,
                           exitType := et.signal, exitCode := 0 }
    let s := if isTermSig sg then { s0 with exit := true, exitCode := 0 }
             else s0
    let hookEvs := match lookupSig h.hookMap sg with
      | some hk => [Ev.hookExec hk s]
      | none => []
    if isTermSig sg then
      let p := h.exit 0 et.signal (some sg)
      (p.1, hookEvs ++ p.2)
    else (h, hookEvs)

/-- The calls into the handler that can race toward exit: a signal delivered
to `handleSignal` by the loop, or a manual `Exit(code)`. -/
inductive HCall where
  | signal (sg : Sig)
  | exitCall (code : Int)
deriving DecidableEq

/-- Whether a call triggers the exit sequence. -/
def isTrigger : HCall → Bool
  | .signal sg => isTermSig sg
  | .exitCall _ => true

/-- One serialized call into the handler (both entry points take the handler
mutex, so calls execute one at a time). -/
def stepCall (h : HandlerState) : HCall → HandlerState × List Ev
  | .signal sg => h.handleSignal sg
  | .exitCall code => h.Exit code

/-- A serialized sequence of calls into the handler, with the concatenated
event trace. -/
def runCalls : HandlerState → List HCall → HandlerState × List Ev
  | h, [] => (h, [])
  | h, c :: rest =>
      let p := stepCall h c
      let q := runCalls p.1 rest
      (q.1, p.2 ++ q.2)

/-! Concrete states used to evaluate the development on small inputs. -/

/-- A valid Function named "a", Order 5, registered first in `hookAB`. -/
def fnA : Function := ⟨some 0, "a", "", false, 5, false⟩

/-- A valid Function named "b", Order 5, registered second in `hookAB`. -/
def fnB : Function := ⟨some 1, "b", "", false, 5, false⟩

/-- A hook holding `fnA` then `fnB`, both at Order 5. -/
def hookAB : HookState :=
  (((NewHook "h" "d").AddFunction fnA).2.AddFunction fnB).2

/-- A valid Notify whose Order is 65535, the top of the uint16 domain. -/
def topNotify : Notify := ⟨some 0, none, "n", "", false, 65535, false⟩

/-- A hook holding only `topNotify`. -/
def hookTop : HookState := ((NewHook "h" "d").AddNotify topNotify).2

/-- A valid Function named "f". -/
def fnF : Function := ⟨some 2, "f", "", false, 5, false⟩

/-- A hook holding only `fnF`. -/
def hookF : HookState := ((NewHook "h" "d").AddFunction fnF).2

/-- A fresh handler with an exit hook installed. -/
def exitReadyHandler : HandlerState :=
  { newHandler with exitHook := some (NewHook "exit" "Handle program exit") }

/-- The state `hookF` reaches after its first `Exec`: the registry was
rebuilt in sorted order, the order slice is filled — and the dirty flag is
still set. -/
def hookF1 : HookState :=
  { name := "h", desc := "d", functions := [fnF], notifies := [],
    doReorder := true, functionOrder := [some fnF], notifyOrder := [] }

/-- A fresh handler whose exit latch is already set. -/
def lockedHandler : HandlerState := { newHandler with exitLock := true }

/-! ### Lemmas about the ordering scan and drain loops -/

theorem cmpb_le {s : Bool} {x y : Nat} (h : cmpb s x y = true) : x ≤ y := by
  cases s <;> simp [cmpb] at h <;> omega

theorem le_of_cmpb_false {s : Bool} {x y : Nat} (h : cmpb s x y = false) :
    y ≤ x := by
  cases s <;> simp [cmpb] at h <;> omega

theorem scanMin_cons {α : Type} (o : α → Nat) (nmf : α → String) (s : Bool)
    (a : α) (rest : List α) (acc : Nat × String) :
    scanMin o nmf s (a :: rest) acc =
      scanMin o nmf s rest (cond (cmpb s (o a) acc.1) (o a, nmf a) acc) := rfl

theorem scanMin_fst_le_acc {α : Type} (o : α → Nat) (nmf : α → String)
    (s : Bool) :
    ∀ (m : List α) (acc : Nat × String), (scanMin o nmf s m acc).1 ≤ acc.1 := by
  intro m
  induction m with
  | nil => intro acc; exact le_rfl
  | cons a rest ih =>
    intro acc
    rw [scanMin_cons]
    cases hc : cmpb s (o a) acc.1 with
    | false => exact ih acc
    | true => exact le_trans (ih (o a, nmf a)) (cmpb_le hc)

theorem scanMin_fst_le_mem {α : Type} (o : α → Nat) (nmf : α → String)
    (s : Bool) :
    ∀ (m : List α) (acc : Nat × String) (x : α), x ∈ m →
      (scanMin o nmf s m acc).1 ≤ o x := by
  intro m
  induction m with
  | nil => intro acc x hx; simp at hx
  | cons a rest ih =>
    intro acc x hx
    rw [scanMin_cons]
    cases hc : cmpb s (o a) acc.1 with
    | false =>
      rcases List.mem_cons.mp hx with rfl | hmem
      · exact le_trans (scanMin_fst_le_acc o nmf s rest acc)
          (le_of_cmpb_false hc)
      · exact ih acc x hmem
    | true =>
      rcases List.mem_cons.mp hx with rfl | hmem
      · exact scanMin_fst_le_acc o nmf s rest (o x, nmf x)
      · exact ih (o a, nmf a) x hmem

theorem scanMin_eq_or_mem {α : Type} (o : α → Nat) (nmf : α → String)
    (s : Bool) :
    ∀ (m : List α) (acc : Nat × String),
      scanMin o nmf s m acc = acc ∨
        ∃ b ∈ m, scanMin o nmf s m acc = (o b, nmf b) := by
  intro m
  induction m with
  | nil => intro acc; left; rfl
  | cons a rest ih =>
    intro acc
    rw [scanMin_cons]
    cases hc : cmpb s (o a) acc.1 with
    | false =>
      rcases ih acc with h | ⟨b, hb, h⟩
      · left; exact h
      · right; exact ⟨b, List.mem_cons_of_mem a hb, h⟩
    | true =>
      rcases ih (o a, nmf a) with h | ⟨b, hb, h⟩
      · right; exact ⟨a, List.mem_cons_self a rest, h⟩
      · right; exact ⟨b, List.mem_cons_of_mem a hb, h⟩

theorem scanMin_exists_mem {α : Type} (o : α → Nat) (nmf : α → String)
    (s : Bool) :
    ∀ (m : List α) (acc : Nat × String),
      (∃ a ∈ m, cmpb s (o a) acc.1 = true) →
      ∃ b ∈ m, scanMin o nmf s m acc = (o b, nmf b) := by
  intro m
  induction m with
  | nil => intro acc h; simp at h
  | cons a rest ih =>
    intro acc h
    obtain ⟨w, hw, hcw⟩ := h
    rw [scanMin_cons]
    cases hc : cmpb s (o a) acc.1 with
    | true =>
      rcases scanMin_eq_or_mem o nmf s rest (o a, nmf a) with h | ⟨b, hb, h⟩
      · exact ⟨a, List.mem_cons_self a rest, h⟩
      · exact ⟨b, List.mem_cons_of_mem a hb, h⟩
    | false =>
      have hwrest : w ∈ rest := by
        rcases List.mem_cons.mp hw with rfl | hm
        · rw [hcw] at hc; exact Bool.noConfusion hc
        · exact hm
      obtain ⟨b, hb, h⟩ := ih acc ⟨w, hwrest, hcw⟩
      exact ⟨b, List.mem_cons_of_mem a hb, h⟩

theorem selectName_spec {α : Type} (o : α → Nat) (nmf : α → String) (s : Bool)
    (m : List α) (a0 : α) (h0 : a0 ∈ m) (hc : cmpb s (o a0) 65535 = true) :
    ∃ b ∈ m, selectName o nmf s m = nmf b ∧ ∀ x ∈ m, o b ≤ o x := by
  obtain ⟨b, hb, heq⟩ :=
    scanMin_exists_mem o nmf s m (65535, "") ⟨a0, h0, hc⟩
  refine ⟨b, hb, ?_, ?_⟩
  · simp [selectName, heq]
  · intro x hx
    have h := scanMin_fst_le_mem o nmf s m (65535, "") x hx
    rw [heq] at h
    exact h

theorem lookupByName_some {α : Type} (nmf : α → String) :
    ∀ (m : List α) (nm : String) (b : α), lookupByName nmf m nm = some b →
      nmf b = nm ∧ b ∈ m := by
  intro m
  induction m with
  | nil => intro nm b h; simp [lookupByName] at h
  | cons a rest ih =>
    intro nm b h
    simp only [lookupByName] at h
    by_cases ha : (nmf a == nm) = true
    · rw [if_pos ha] at h
      obtain rfl := Option.some.inj h
      exact ⟨eq_of_beq ha, List.mem_cons_self a rest⟩
    · rw [if_neg ha] at h
      obtain ⟨h1, h2⟩ := ih nm b h
      exact ⟨h1, List.mem_cons_of_mem a h2⟩

theorem lookupByName_isSome_of_mem {α : Type} (nmf : α → String) :
    ∀ (m : List α) (b : α), b ∈ m →
      ∃ c, lookupByName nmf m (nmf b) = some c := by
  intro m
  induction m with
  | nil => intro b hb; simp at hb
  | cons a rest ih =>
    intro b hb
    simp only [lookupByName]
    by_cases ha : (nmf a == nmf b) = true
    · exact ⟨a, by rw [if_pos ha]⟩
    · rcases List.mem_cons.mp hb with rfl | hm
      · exact absurd (beq_self_eq_true (nmf b)) ha
      · obtain ⟨c, hc⟩ := ih b hm
        exact ⟨c, by rw [if_neg ha, hc]⟩

theorem lookupByName_eq_none {α : Type} (nmf : α → String) :
    ∀ (m : List α) (nm : String),
      lookupByName nmf m nm = none ↔ ∀ x ∈ m, nmf x ≠ nm := by
  intro m
  induction m with
  | nil => intro nm; simp [lookupByName]
  | cons a rest ih =>
    intro nm
    simp only [lookupByName]
    by_cases ha : (nmf a == nm) = true
    · rw [if_pos ha]
      constructor
      · intro h; exact Option.noConfusion h
      · intro hall
        exact absurd (eq_of_beq ha) (hall a (List.mem_cons_self a rest))
    · rw [if_neg ha, ih nm]
      constructor
      · intro hall x hx
        rcases List.mem_cons.mp hx with rfl | hm
        · exact fun hnm => ha (by rw [hnm]; exact beq_self_eq_true nm)
        · exact hall x hm
      · intro hall x hx
        exact hall x (List.mem_cons_of_mem a hx)

theorem perm_cons_eraseByName {α : Type} (nmf : α → String) :
    ∀ (m : List α) (nm : String) (b : α),
      lookupByName nmf m nm = some b →
      m.Perm (b :: eraseByName nmf m nm) := by
  intro m
  induction m with
  | nil => intro nm b h; simp [lookupByName] at h
  | cons a rest ih =>
    intro nm b h
    simp only [lookupByName] at h
    by_cases ha : (nmf a == nm) = true
    · rw [if_pos ha] at h
      obtain rfl := Option.some.inj h
      have h2 : eraseByName nmf (a :: rest) nm = rest := by
        simp only [eraseByName]; rw [if_pos ha]
      rw [h2]
    · rw [if_neg ha] at h
      have hr := ih nm b h
      have h2 : eraseByName nmf (a :: rest) nm =
          a :: eraseByName nmf rest nm := by
        simp only [eraseByName]; rw [if_neg ha]
      rw [h2]
      exact (hr.cons a).trans (List.Perm.swap b a _)

theorem eraseByName_length {α : Type} (nmf : α → String) {m : List α}
    {nm : String} {b : α} (h : lookupByName nmf m nm = some b) :
    m.length = (eraseByName nmf m nm).length + 1 := by
  simpa using (perm_cons_eraseByName nmf m nm b h).length_eq

theorem mem_of_mem_eraseByName {α : Type} (nmf : α → String) {m : List α}
    {nm : String} {b x : α} (h : lookupByName nmf m nm = some b)
    (hx : x ∈ eraseByName nmf m nm) : x ∈ m :=
  (perm_cons_eraseByName nmf m nm b h).mem_iff.mpr
    (List.mem_cons_of_mem b hx)

theorem nodup_eraseByName {α : Type} (nmf : α → String) {m : List α}
    {nm : String} {b : α} (h : lookupByName nmf m nm = some b)
    (hn : (m.map nmf).Nodup) : ((eraseByName nmf m nm).map nmf).Nodup := by
  have hp : (m.map nmf).Perm ((b :: eraseByName nmf m nm).map nmf) :=
    (perm_cons_eraseByName nmf m nm b h).map nmf
  have h2 := hn.perm hp
  rw [List.map_cons, List.nodup_cons] at h2
  exact h2.2

theorem drainAux_sound {α : Type} (o : α → Nat) (nmf : α → String) (s : Bool) :
    ∀ (fuel : Nat) (m : List α), m.length ≤ fuel →
      (m.map nmf).Nodup → (∀ a ∈ m, cmpb s (o a) 65535 = true) →
      ∃ res, drainAux o nmf s fuel m = some res ∧ m.Perm res ∧
        res.Pairwise (fun x y => o x ≤ o y) := by
  intro fuel
  induction fuel with
  | zero =>
    intro m hlen _ _
    have hm : m = [] := List.length_eq_zero.mp (Nat.le_zero.mp hlen)
    subst hm
    exact ⟨[], rfl, List.Perm.refl [], List.Pairwise.nil⟩
  | succ fuel ih =>
    intro m hlen hnd hb
    match m, hlen, hnd, hb with
    | [], _, _, _ => exact ⟨[], rfl, List.Perm.refl [], List.Pairwise.nil⟩
    | a :: rest, hlen, hnd, hb =>
      obtain ⟨b, hbmem, hsel, hmin⟩ :=
        selectName_spec o nmf s (a :: rest) a (List.mem_cons_self a rest)
          (hb a (List.mem_cons_self a rest))
      obtain ⟨c, hc0⟩ := lookupByName_isSome_of_mem nmf (a :: rest) b hbmem
      have hceq : nmf c = nmf b :=
        (lookupByName_some nmf (a :: rest) (nmf b) c hc0).1
      have hcmem : c ∈ a :: rest :=
        (lookupByName_some nmf (a :: rest) (nmf b) c hc0).2
      have hcb : c = b := List.inj_on_of_nodup_map hnd hcmem hbmem hceq
      subst hcb
      have hc : lookupByName nmf (a :: rest)
          (selectName o nmf s (a :: rest)) = some c := by
        rw [hsel]; exact hc0
      have hlen2 := eraseByName_length nmf hc
      have hlen3 : (eraseByName nmf (a :: rest)
          (selectName o nmf s (a :: rest))).length ≤ fuel := by
        simp only [List.length_cons] at hlen hlen2
        omega
      have hnd2 := nodup_eraseByName nmf hc hnd
      have hb2 : ∀ x ∈ eraseByName nmf (a :: rest)
          (selectName o nmf s (a :: rest)), cmpb s (o x) 65535 = true :=
        fun x hx => hb x (mem_of_mem_eraseByName nmf hc hx)
      obtain ⟨res2, heq2, hperm2, hpw2⟩ := ih _ hlen3 hnd2 hb2
      refine ⟨c :: res2, ?_, ?_, ?_⟩
      · simp only [drainAux]
        rw [hc, heq2]
        rfl
      · exact (perm_cons_eraseByName nmf (a :: rest) _ c hc).trans
          (hperm2.cons c)
      · rw [List.pairwise_cons]
        refine ⟨?_, hpw2⟩
        intro x hx
        have hx1 : x ∈ eraseByName nmf (a :: rest)
            (selectName o nmf s (a :: rest)) := hperm2.mem_iff.mpr hx
        exact hmin x (mem_of_mem_eraseByName nmf hc hx1)

theorem reduceOption_map_some {α : Type} (l : List α) :
    (l.map some).reduceOption = l := by
  induction l with
  | nil => rfl
  | cons a rest ih => simp [List.reduceOption_cons_of_some, ih]

theorem lookupByName_insertByName {α : Type} (nmf : α → String) :
    ∀ (m : List α) (x : α),
      lookupByName nmf (insertByName nmf m x) (nmf x) = some x := by
  intro m x
  induction m with
  | nil =>
    simp only [insertByName, lookupByName]
    rw [if_pos (beq_self_eq_true (nmf x))]
  | cons g rest ih =>
    simp only [insertByName]
    by_cases hg : (nmf g == nmf x) = true
    · rw [if_pos hg]
      simp only [lookupByName]
      rw [if_pos (beq_self_eq_true (nmf x))]
    · rw [if_neg hg]
      simp only [lookupByName]
      rw [if_neg hg, ih]

/-- `Exec` from a dirty state with empty order slices (the state every
sequence of registrations on a fresh hook produces), given that both drain
loops complete. -/
theorem Exec_of_drains (h : HookState) (hd : h.doReorder = true)
    (hfe : h.functionOrder = []) (hne : h.notifyOrder = [])
    {fs : List Function} {ns : List Notify}
    (hf : drainFunctions h.functions = some fs)
    (hn : drainNotifies h.notifies = some ns) :
    h.Exec = some ({ h with functions := fs, notifies := ns,
                            functionOrder := fs.map some,
                            notifyOrder := ns.map some }, fs, ns) := by
  unfold HookState.Exec HookState.reorder
  rw [hd, hfe, hne, hf, hn]
  simp [reduceOption_map_some, List.all_eq_true]

/-- C2 (amended): from a dirty hook with empty order caches (as reached by
registering on a fresh hook), with uniquely named entries, Function Orders in
the uint16 range and Notify Orders strictly below 65535, `Exec` completes
and dispatches: the inline/detached Functions are invoked/launched in
non-decreasing `Order`, the Notifies are sent in non-decreasing `Order`, and
each registered entry is dispatched exactly once (the traces are
permutations of the registries).  The registration-order tie-break of the
original claim does not hold (see the counterexample), and an Order-65535
Notify makes `Exec` diverge (see C3), whence the added hypothesis. -/
theorem exec_dispatch_ordered (h : HookState) (hd : h.doReorder = true)
    (hfe : h.functionOrder = []) (hne : h.notifyOrder = [])
    (hfn : (h.functions.map (fun f => f.name)).Nodup)
    (hnn : (h.notifies.map (fun n => n.name)).Nodup)
    (hfo : ∀ f ∈ h.functions, f.order ≤ 65535)
    (hno : ∀ n ∈ h.notifies, n.order < 65535) :
    ∃ h2 fs ns, h.Exec = some (h2, fs, ns) ∧
      h.functions.Perm fs ∧ fs.Pairwise (fun x y => x.order ≤ y.order) ∧
      h.notifies.Perm ns ∧ ns.Pairwise (fun x y => x.order ≤ y.order) := by
  obtain ⟨fs, hfs, hpf, hwf⟩ :=
    drainAux_sound (fun f => f.order) (fun f => f.name) false
      h.functions.length h.functions le_rfl hfn
      (by intro a ha; simpa [cmpb] using hfo a ha)
  obtain ⟨ns, hns, hpn, hwn⟩ :=
    drainAux_sound (fun n => n.order) (fun n => n.name) true
      h.notifies.length h.notifies le_rfl hnn
      (by intro a ha; simpa [cmpb] using hno a ha)
  exact ⟨_, fs, ns, Exec_of_drains h hd hfe hne hfs hns, hpf, hwf, hpn, hwn⟩

/-- C2, counterexample: on `hookAB` — Function "a" registered before
Function "b", both at `Order` 5 — `Exec` invokes "b" first, not "a" as the
claim's registration-order tie-break requires: the selection scan keeps the
last entry of the traversal whose `Order` is `<=` the running minimum. -/
theorem exec_equal_order_ties_reversed :
    hookAB.Exec.map (fun r => r.2.1.map (fun f => f.name)) = some ["b", "a"]
      ∧ (["b", "a"] : List String) ≠ ["a", "b"] := by
  constructor
  · rfl
  · decide

theorem exec_dispatch_ordered_witness :
    ∃ h2 fs ns, hookAB.Exec = some (h2, fs, ns) ∧
      hookAB.functions.Perm fs ∧ fs.Pairwise (fun x y => x.order ≤ y.order) ∧
      hookAB.notifies.Perm ns ∧ ns.Pairwise (fun x y => x.order ≤ y.order) :=
  exec_dispatch_ordered hookAB rfl rfl rfl (by decide) (by decide)
    (by decide) (by decide)

/-- C3 (code bug): a Notify whose `Order` is 65535 — a value of the uint16
domain — makes the ordering recomputation diverge: the notify scan starts
its running minimum at `math.MaxUint16` and compares with strict `<`, so an
Order-65535 entry is never selected, the loop deletes nothing, and
`reorder` (hence `Exec`) never terminates (`none` in the model).  The
functions loop, whose comparison is `<=`, does not have this defect. -/
theorem reorder_order65535_notify_diverges :
    hookTop.doReorder = true ∧ hookTop.notifies = [topNotify] ∧
    topNotify.order = 65535 ∧ hookTop.reorder = none ∧ hookTop.Exec = none :=
  ⟨rfl, rfl, rfl, rfl, rfl⟩

/-- C9 (code bug): `reorder` never clears `doReorder`, so after a first
successful `Exec` on `hookF` the flag is still set, and the second `Exec`
recomputes — and panics, because `clear` kept the length of the order
slice, leaving a nil entry in front of the rebuilत slice (`none` in the
model).  The claim's "completing the recomputation clears the flag" and
"a second Exec performs no recomputation" both fail on the code. -/
theorem second_exec_recomputes_and_panics :
    hookF.Exec = some (hookF1, [fnF], []) ∧ hookF1.doReorder = true ∧
      hookF1.reorder = none ∧ hookF1.Exec = none :=
  ⟨rfl, rfl, rfl, rfl⟩

/-- C4: registration validation, in the order the code checks — empty name,
then nil body/channel, then an unoverwritable duplicate name (failing with
the error that names the entry); otherwise the entry is inserted or
replaced and the registry is marked dirty.  Every failing registration
returns the state unchanged. -/
theorem registration_validation (h : HookState) (f : Function) (n : Notify) :
    (f.name = "" → h.AddFunction f = (some .functionNameEmpty, h)) ∧
    (f.name ≠ "" → f.func = none → h.AddFunction f = (some .funcNil, h)) ∧
    (f.name ≠ "" → f.func ≠ none →
      (lookupByName (fun g => g.name) h.functions f.name).isSome = true →
      f.overwrite = false →
      h.AddFunction f = (some (.functionExists f.name), h)) ∧
    (f.name ≠ "" → f.func ≠ none →
      (lookupByName (fun g => g.name) h.functions f.name = none ∨
        f.overwrite = true) →
      h.AddFunction f = (none, { h with
        doReorder := true,
        functions := insertByName (fun g => g.name) h.functions f })) ∧
    (n.name = "" → h.AddNotify n = (some .notifyNameEmpty, h)) ∧
    (n.name ≠ "" → n.chan = none → h.AddNotify n = (some .chanNil, h)) ∧
    (n.name ≠ "" → n.chan ≠ none →
      (lookupByName (fun m => m.name) h.notifies n.name).isSome = true →
      n.overwrite = false →
      h.AddNotify n = (some (.notifyExists n.name), h)) ∧
    (n.name ≠ "" → n.chan ≠ none →
      (lookupByName (fun m => m.name) h.notifies n.name = none ∨
        n.overwrite = true) →
      h.AddNotify n = (none, { h with
        doReorder := true,
        notifies := insertByName (fun m => m.name) h.notifies n })) := by
  refine ⟨?_, ?_, ?_, ?_, ?_, ?_, ?_, ?_⟩
  · intro h1; simp [HookState.AddFunction, h1]
  · intro h1 h2; simp [HookState.AddFunction, h1, h2]
  · intro h1 h2 h3 h4; simp [HookState.AddFunction, h1, h2, h3, h4]
  · intro h1 h2 h3
    rcases h3 with h3 | h3 <;> simp [HookState.AddFunction, h1, h2, h3]
  · intro h1; simp [HookState.AddNotify, h1]
  · intro h1 h2; simp [HookState.AddNotify, h1, h2]
  · intro h1 h2 h3 h4; simp [HookState.AddNotify, h1, h2, h3, h4]
  · intro h1 h2 h3
    rcases h3 with h3 | h3 <;> simp [HookState.AddNotify, h1, h2, h3]

theorem registration_validation_witness :
    ((NewHook "h" "d").AddFunction ⟨some 0, "", "", false, 0, false⟩ =
      (some .functionNameEmpty, NewHook "h" "d")) ∧
    ((NewHook "h" "d").AddNotify topNotify =
      (none, { NewHook "h" "d" with
        doReorder := true,
        notifies := insertByName (fun m => m.name) [] topNotify })) :=
  ⟨(registration_validation (NewHook "h" "d")
      ⟨some 0, "", "", false, 0, false⟩ topNotify).1 rfl,
   (registration_validation (NewHook "h" "d")
      ⟨some 0, "", "", false, 0, false⟩ topNotify).2.2.2.2.2.2.2
      (by decide) (by decide) (Or.inl rfl)⟩

/-- C5: after a successful registration, `GetFunction`/`GetNotify` at the
registered name returns exactly the registered entry; the getters are pure
reads (their type neither mutates the state nor carries an error), and they
return "not found" (`none`) exactly for the names not in the registry. -/
theorem registration_lookup_roundtrip (h : HookState) (f : Function)
    (n : Notify) (nm : String)
    (hf : (h.AddFunction f).1 = none) (hn : (h.AddNotify n).1 = none) :
    ((h.AddFunction f).2.GetFunction f.name = some f) ∧
    ((h.AddNotify n).2.GetNotify n.name = some n) ∧
    (h.GetFunction nm = none ↔ ∀ g ∈ h.functions, g.name ≠ nm) ∧
    (h.GetNotify nm = none ↔ ∀ m ∈ h.notifies, m.name ≠ nm) := by
  refine ⟨?_, ?_, ?_, ?_⟩
  · by_cases h1 : f.name = ""
    · simp [HookState.AddFunction, h1] at hf
    · by_cases h2 : f.func = none
      · simp [HookState.AddFunction, h1, h2] at hf
      · by_cases h3 : (lookupByName (fun g => g.name) h.functions
            f.name).isSome = true ∧ f.overwrite = false
        · simp [HookState.AddFunction, h1, h2, h3.1, h3.2] at hf
        · have : h.AddFunction f = (none, { h with
              doReorder := true,
              functions := insertByName (fun g => g.name) h.functions f }) := by
            simp only [HookState.AddFunction, if_neg h1, if_neg h2]
            rw [if_neg h3]
          rw [this]
          exact lookupByName_insertByName (fun g => g.name) h.functions f
  · by_cases h1 : n.name = ""
    · simp [HookState.AddNotify, h1] at hn
    · by_cases h2 : n.chan = none
      · simp [HookState.AddNotify, h1, h2] at hn
      · by_cases h3 : (lookupByName (fun m => m.name) h.notifies
            n.name).isSome = true ∧ n.overwrite = false
        · simp [HookState.AddNotify, h1, h2, h3.1, h3.2] at hn
        · have : h.AddNotify n = (none, { h with
              doReorder := true,
              notifies := insertByName (fun m => m.name) h.notifies n }) := by
            simp only [HookState.AddNotify, if_neg h1, if_neg h2]
            rw [if_neg h3]
          rw [this]
          exact lookupByName_insertByName (fun m => m.name) h.notifies n
  · exact lookupByName_eq_none (fun g => g.name) h.functions nm
  · exact lookupByName_eq_none (fun m => m.name) h.notifies nm

theorem registration_lookup_roundtrip_witness :
    (((NewHook "h" "d").AddFunction fnF).2.GetFunction "f" = some fnF) ∧
    (((NewHook "h" "d").AddNotify topNotify).2.GetNotify "n" = some topNotify) ∧
    ((NewHook "h" "d").GetFunction "zzz" = none ↔
      ∀ g ∈ (NewHook "h" "d").functions, g.name ≠ "zzz") ∧
    ((NewHook "h" "d").GetNotify "zzz" = none ↔
      ∀ m ∈ (NewHook "h" "d").notifies, m.name ≠ "zzz") :=
  registration_lookup_roundtrip (NewHook "h" "d") fnF topNotify "zzz"
    (by decide) (by decide)

/-! ### Lemmas about the handler -/

theorem exit_of_locked (h : HandlerState) (code : Int) (t : et)
    (sg : Option Sig) (hl : h.exitLock = true) :
    h.exit code t sg = (h, []) := by
  simp [HandlerState.exit, hl]

theorem handleSignal_of_locked (h : HandlerState) (sg : Sig)
    (hl : h.exitLock = true) : h.handleSignal sg = (h, []) := by
  simp [HandlerState.handleSignal, hl]

theorem exit_of_unlocked (h : HandlerState) (code : Int) (t : et)
    (sg : Option Sig) (hl : h.exitLock = false) :
    h.exit code t sg =
      ({ h with exitLock := true, loopLock := false },
       (if h.exitHook.isSome then [Ev.exitHookExec ⟨sg, true, t, code⟩]
        else []) ++ [Ev.terminate code]) := by
  simp [HandlerState.exit, hl]

theorem stepCall_of_locked (h : HandlerState) (c : HCall)
    (hl : h.exitLock = true) : stepCall h c = (h, []) := by
  cases c with
  | signal sg => exact handleSignal_of_locked h sg hl
  | exitCall code => exact exit_of_locked h code .manual none hl

theorem runCalls_of_locked :
    ∀ (cs : List HCall) (h : HandlerState), h.exitLock = true →
      runCalls h cs = (h, []) := by
  intro cs
  induction cs with
  | nil => intro h _; rfl
  | cons c rest ih =>
    intro h hl
    show ((runCalls (stepCall h c).1 rest).1,
          (stepCall h c).2 ++ (runCalls (stepCall h c).1 rest).2) = (h, [])
    rw [stepCall_of_locked h c hl]
    rw [ih h hl]
    rfl

theorem stepCall_trigger (h : HandlerState) (c : HCall)
    (hl : h.exitLock = false) (hh : h.exitHook.isSome = true)
    (ht : isTrigger c = true) :
    ((stepCall h c).2.countP Ev.isExitHookExec = 1) ∧
    ((stepCall h c).2.countP Ev.isTerminate = 1) ∧
    ((stepCall h c).1.exitLock = true) := by
  cases c with
  | exitCall code =>
    show ((h.exit code .manual none).2.countP Ev.isExitHookExec = 1) ∧
      ((h.exit code .manual none).2.countP Ev.isTerminate = 1) ∧
      ((h.exit code .manual none).1.exitLock = true)
    rw [exit_of_unlocked h code .manual none hl, hh]
    refine ⟨?_, ?_, rfl⟩ <;>
      simp [List.countP_cons, List.countP_nil, List.countP_append,
        Ev.isExitHookExec, Ev.isTerminate]
  | signal sg =>
    have hts : isTermSig sg = true := ht
    show ((h.handleSignal sg).2.countP Ev.isExitHookExec = 1) ∧
      ((h.handleSignal sg).2.countP Ev.isTerminate = 1) ∧
      ((h.handleSignal sg).1.exitLock = true)
    cases hlk : lookupSig h.hookMap sg with
    | some hk =>
      simp only [HandlerState.handleSignal, hl, Bool.false_eq_true, if_false,
        hlk, hts, if_true]
      rw [exit_of_unlocked h 0 .signal (some sg) hl, hh]
      refine ⟨?_, ?_, rfl⟩ <;>
        simp [List.countP_cons, List.countP_nil, List.countP_append,
          Ev.isExitHookExec, Ev.isTerminate]
    | none =>
      simp only [HandlerState.handleSignal, hl, Bool.false_eq_true, if_false,
        hlk, hts, if_true]
      rw [exit_of_unlocked h 0 .signal (some sg) hl, hh]
      refine ⟨?_, ?_, rfl⟩ <;>
        simp [List.countP_cons, List.countP_nil, List.countP_append,
          Ev.isExitHookExec, Ev.isTerminate]

theorem stepCall_nonTrigger (h : HandlerState) (c : HCall)
    (hl : h.exitLock = false) (ht : isTrigger c = false) :
    ((stepCall h c).1 = h) ∧
    ((stepCall h c).2.countP Ev.isExitHookExec = 0) ∧
    ((stepCall h c).2.countP Ev.isTerminate = 0) := by
  cases c with
  | exitCall code => simp [isTrigger] at ht
  | signal sg =>
    have hts : isTermSig sg = false := ht
    show ((h.handleSignal sg).1 = h) ∧
      ((h.handleSignal sg).2.countP Ev.isExitHookExec = 0) ∧
      ((h.handleSignal sg).2.countP Ev.isTerminate = 0)
    cases hlk : lookupSig h.hookMap sg with
    | some hk =>
      simp only [HandlerState.handleSignal, hl, Bool.false_eq_true, if_false,
        hlk, hts]
      refine ⟨trivial, ?_, ?_⟩ <;>
        simp [List.countP_cons, List.countP_nil,
          Ev.isExitHookExec, Ev.isTerminate]
    | none =>
      simp only [HandlerState.handleSignal, hl, Bool.false_eq_true, if_false,
        hlk, hts]
      refine ⟨trivial, ?_, ?_⟩ <;>
        simp [List.countP_nil]

theorem runCalls_trigger :
    ∀ (cs : List HCall) (h : HandlerState), h.exitHook.isSome = true →
      h.exitLock = false → (∃ c ∈ cs, isTrigger c = true) →
      ((runCalls h cs).2.countP Ev.isExitHookExec = 1) ∧
      ((runCalls h cs).2.countP Ev.isTerminate = 1) ∧
      ((runCalls h cs).1.exitLock = true) := by
  intro cs
  induction cs with
  | nil => intro h _ _ ht; simp at ht
  | cons c rest ih =>
    intro h hh hl ht
    have hrun : runCalls h (c :: rest) =
        ((runCalls (stepCall h c).1 rest).1,
         (stepCall h c).2 ++ (runCalls (stepCall h c).1 rest).2) := rfl
    cases hct : isTrigger c with
    | true =>
      obtain ⟨k1, k2, k3⟩ := stepCall_trigger h c hl hh hct
      have hrest := runCalls_of_locked rest (stepCall h c).1 k3
      rw [hrun, hrest]
      refine ⟨?_, ?_, k3⟩ <;>
        simp [List.countP_append, k1, k2]
    | false =>
      obtain ⟨hst, k1, k2⟩ := stepCall_nonTrigger h c hl hct
      have htr : ∃ c2 ∈ rest, isTrigger c2 = true := by
        obtain ⟨c2, hc2, htc2⟩ := ht
        rcases List.mem_cons.mp hc2 with rfl | hm
        · rw [htc2] at hct; exact Bool.noConfusion hct
        · exact ⟨c2, hm, htc2⟩
      obtain ⟨m1, m2, m3⟩ := ih h hh hl htr
      rw [hrun, hst]
      refine ⟨?_, ?_, m3⟩ <;>
        simp [List.countP_append, k1, k2, m1, m2]

/-- C1: the exit sequence runs at most once per process.  From any handler
state with an exit hook set and the exit latch clear, every serialized
sequence of calls (signals routed through `handleSignal` and/or manual
`Exit` calls) that contains at least one exit trigger — a termination-class
signal or an `Exit` call — executes the exit hook exactly once and invokes
process termination exactly once; and any further call to `exit` on the
resulting state is a no-op that returns the state unchanged and performs
nothing. -/
theorem exit_sequence_once (h : HandlerState) (cs : List HCall)
    (hh : h.exitHook.isSome = true) (hl : h.exitLock = false)
    (ht : ∃ c ∈ cs, isTrigger c = true) :
    ((runCalls h cs).2.countP Ev.isExitHookExec = 1) ∧
    ((runCalls h cs).2.countP Ev.isTerminate = 1) ∧
    (∀ (code : Int) (t : et) (sg : Option Sig),
      (runCalls h cs).1.exit code t sg = ((runCalls h cs).1, [])) := by
  obtain ⟨k1, k2, k3⟩ := runCalls_trigger cs h hh hl ht
  exact ⟨k1, k2, fun code t sg => exit_of_locked _ code t sg k3⟩

theorem exit_sequence_once_witness :
    ((runCalls exitReadyHandler
        [HCall.exitCall 0, HCall.signal Sig.int]).2.countP
        Ev.isExitHookExec = 1) ∧
    ((runCalls exitReadyHandler
        [HCall.exitCall 0, HCall.signal Sig.int]).2.countP
        Ev.isTerminate = 1) ∧
    ((runCalls exitReadyHandler
        [HCall.exitCall 0, HCall.signal Sig.int]).1.exit 2 et.manual none =
      ((runCalls exitReadyHandler
        [HCall.exitCall 0, HCall.signal Sig.int]).1, [])) := by
  have k := exit_sequence_once exitReadyHandler
    [HCall.exitCall 0, HCall.signal Sig.int] rfl rfl
    ⟨HCall.exitCall 0, by decide, rfl⟩
  exact ⟨k.1, k.2.1, k.2.2 2 et.manual none⟩

theorem captureSig_exitHook (st : HandlerState) (sg : Sig) :
    (captureSig st sg).exitHook = st.exitHook := by
  by_cases hm : sg ∈ st.capturing <;> simp [captureSig, hm]

theorem captureSig_hookMap (st : HandlerState) (sg : Sig) :
    (captureSig st sg).hookMap = st.hookMap := by
  by_cases hm : sg ∈ st.capturing <;> simp [captureSig, hm]

theorem captureSig_loopLock (st : HandlerState) (sg : Sig) :
    (captureSig st sg).loopLock = st.loopLock := by
  by_cases hm : sg ∈ st.capturing <;> simp [captureSig, hm]

theorem captureSig_exitLock (st : HandlerState) (sg : Sig) :
    (captureSig st sg).exitLock = st.exitLock := by
  by_cases hm : sg ∈ st.capturing <;> simp [captureSig, hm]

theorem foldl_captureSig_fields :
    ∀ (sigs : List Sig) (st : HandlerState),
      ((sigs.foldl captureSig st).exitHook = st.exitHook) ∧
      ((sigs.foldl captureSig st).hookMap = st.hookMap) ∧
      ((sigs.foldl captureSig st).loopLock = st.loopLock) ∧
      ((sigs.foldl captureSig st).exitLock = st.exitLock) := by
  intro sigs
  induction sigs with
  | nil => intro st; exact ⟨rfl, rfl, rfl, rfl⟩
  | cons a rest ih =>
    intro st
    obtain ⟨e1, e2, e3, e4⟩ := ih (captureSig st a)
    exact ⟨e1.trans (captureSig_exitHook st a),
      e2.trans (captureSig_hookMap st a),
      e3.trans (captureSig_loopLock st a),
      e4.trans (captureSig_exitLock st a)⟩

theorem foldl_captureSig_capturing :
    ∀ (sigs : List Sig) (st : HandlerState), sigs.Nodup →
      (sigs.foldl captureSig st).capturing =
        st.capturing ++ sigs.filter (fun s => decide (s ∉ st.capturing)) := by
  intro sigs
  induction sigs with
  | nil => intro st _; simp
  | cons a rest ih =>
    intro st hnd
    rw [List.nodup_cons] at hnd
    obtain ⟨hna, hrest⟩ := hnd
    show (rest.foldl captureSig (captureSig st a)).capturing = _
    rw [ih (captureSig st a) hrest]
    by_cases hmem : a ∈ st.capturing
    · have hcap : (captureSig st a).capturing = st.capturing := by
        simp [captureSig, hmem]
      rw [hcap, List.filter_cons]
      simp [hmem]
    · have hcap : (captureSig st a).capturing = st.capturing ++ [a] := by
        simp [captureSig, hmem]
      rw [hcap]
      have hfc : rest.filter (fun s => decide (s ∉ st.capturing ++ [a])) =
          rest.filter (fun s => decide (s ∉ st.capturing)) := by
        apply List.filter_congr
        intro x hx
        have hxa : x ≠ a := fun he => hna (he ▸ hx)
        simp [List.mem_append, hxa]
      rw [hfc, List.filter_cons]
      simp [hmem, List.append_assoc]

theorem lookupSig_append_self :
    ∀ (m : List (Sig × HookState)) (sg : Sig) (hk : HookState),
      lookupSig m sg = none → lookupSig (m ++ [(sg, hk)]) sg = some hk := by
  intro m
  induction m with
  | nil => intro sg hk _; simp [lookupSig]
  | cons p rest ih =>
    intro sg hk h
    simp only [lookupSig] at h
    by_cases hp : p.1 = sg
    · rw [if_pos hp] at h; exact Option.noConfusion h
    · rw [if_neg hp] at h
      rw [List.cons_append]
      simp only [lookupSig]
      rw [if_neg hp]
      exact ih sg hk h

theorem setExit_none (h : HandlerState) : h.setExit none = (some .hookNil, h) :=
  rfl

theorem setExit_exists (h : HandlerState) (hk : HookState)
    (he : h.exitHook.isSome = true) :
    h.setExit (some hk) = (some .exitExists, h) := by
  simp [HandlerState.setExit, he]

theorem setExit_success (h : HandlerState) (hk : HookState)
    (he : h.exitHook = none) :
    (h.setExit (some hk)).1 = none ∧
    (h.setExit (some hk)).2.exitHook = some hk ∧
    (h.setExit (some hk)).2.capturing =
      h.capturing ++ termSigs.filter (fun s => decide (s ∉ h.capturing)) ∧
    (h.setExit (some hk)).2.hookMap = h.hookMap ∧
    (h.setExit (some hk)).2.loopLock = h.loopLock ∧
    (h.setExit (some hk)).2.exitLock = h.exitLock := by
  have hs : h.setExit (some hk) =
      (none, termSigs.foldl captureSig { h with exitHook := some hk }) := by
    simp [HandlerState.setExit, he]
  rw [hs]
  obtain ⟨e1, e2, e3, e4⟩ :=
    foldl_captureSig_fields termSigs { h with exitHook := some hk }
  have hcap := foldl_captureSig_capturing termSigs
    { h with exitHook := some hk } (by decide)
  exact ⟨rfl, e1, hcap, e2, e3, e4⟩

theorem set_none (h : HandlerState) (sg : Sig) :
    h.set sg none = (some .hookNil, h) := rfl

theorem set_exists (h : HandlerState) (sg : Sig) (hk : HookState)
    (he : (lookupSig h.hookMap sg).isSome = true) :
    h.set sg (some hk) = (some (.signalExists sg), h) := by
  simp [HandlerState.set, he]

theorem set_success (h : HandlerState) (sg : Sig) (hk : HookState)
    (he : lookupSig h.hookMap sg = none) :
    (h.set sg (some hk)).1 = none ∧
    (h.set sg (some hk)).2.hookMap = h.hookMap ++ [(sg, hk)] ∧
    (h.set sg (some hk)).2.capturing =
      (if sg ∈ h.capturing then h.capturing else h.capturing ++ [sg]) ∧
    (h.set sg (some hk)).2.exitHook = h.exitHook ∧
    (h.set sg (some hk)).2.loopLock = h.loopLock ∧
    (h.set sg (some hk)).2.exitLock = h.exitLock := by
  have hs : h.set sg (some hk) =
      (none, captureSig { h with hookMap := h.hookMap ++ [(sg, hk)] } sg) := by
    simp [HandlerState.set, he]
  rw [hs]
  refine ⟨rfl, captureSig_hookMap _ sg, ?_, captureSig_exitHook _ sg,
    captureSig_loopLock _ sg, captureSig_exitLock _ sg⟩
  by_cases hm : sg ∈ h.capturing <;> simp [captureSig, hm]

/-- C6: `SetExit` fails with the nil-hook error on a null hook and with the
already-exists error when an exit hook is set, leaving the state unchanged;
on success it stores the hook and begins intercepting each signal of the
default termination set (interrupt, terminate, quit) that was not already
intercepted, touching nothing else.  `Set` fails with the nil-hook error on
a null hook and with the already-exists error (naming the signal) when the
signal already has a hook, unchanged; on success it stores the mapping and
begins intercepting that signal if not already intercepted. -/
theorem handler_set_validation (h : HandlerState) (hk : HookState) (sg : Sig) :
    (h.SetExit none = (some .hookNil, h)) ∧
    (h.exitHook.isSome = true → h.SetExit (some hk) = (some .exitExists, h)) ∧
    (h.exitHook = none →
      (h.SetExit (some hk)).1 = none ∧
      (h.SetExit (some hk)).2.exitHook = some hk ∧
      (h.SetExit (some hk)).2.capturing =
        h.capturing ++ termSigs.filter (fun s => decide (s ∉ h.capturing)) ∧
      (h.SetExit (some hk)).2.hookMap = h.hookMap ∧
      (h.SetExit (some hk)).2.loopLock = h.loopLock ∧
      (h.SetExit (some hk)).2.exitLock = h.exitLock) ∧
    (h.Set sg none = (some .hookNil, h)) ∧
    ((lookupSig h.hookMap sg).isSome = true →
      h.Set sg (some hk) = (some (.signalExists sg), h)) ∧
    (lookupSig h.hookMap sg = none →
      (h.Set sg (some hk)).1 = none ∧
      (h.Set sg (some hk)).2.hookMap = h.hookMap ++ [(sg, hk)] ∧
      (h.Set sg (some hk)).2.capturing =
        (if sg ∈ h.capturing then h.capturing else h.capturing ++ [sg]) ∧
      (h.Set sg (some hk)).2.exitHook = h.exitHook ∧
      (h.Set sg (some hk)).2.loopLock = h.loopLock ∧
      (h.Set sg (some hk)).2.exitLock = h.exitLock) :=
  ⟨setExit_none h, setExit_exists h hk, setExit_success h hk,
   set_none h sg, set_exists h sg hk, set_success h sg hk⟩

theorem handler_set_validation_witness :
    (newHandler.SetExit none = (some .hookNil, newHandler)) ∧
    ((newHandler.SetExit (some (NewHook "e" ""))).2.capturing =
      newHandler.capturing ++ termSigs.filter
        (fun s => decide (s ∉ newHandler.capturing))) ∧
    ((newHandler.Set Sig.int (some (NewHook "e" ""))).2.hookMap =
      newHandler.hookMap ++ [(Sig.int, NewHook "e" "")]) := by
  have k := handler_set_validation newHandler (NewHook "e" "") Sig.int
  exact ⟨k.1, (k.2.2.1 rfl).2.2.1, (k.2.2.2.2.2 rfl).2.1⟩

/-- C7: `handleSignal` is a no-op while exit is in progress; otherwise it
executes, via `Exec`, the hook registered for exactly the delivered signal
(if any), passing an `OSSignal` whose `Exit` flag is set precisely for a
termination-class signal with `ExitCode` 0, and then drives the exit
sequence with code 0 if and only if the signal is termination-class. -/
theorem handleSignal_spec (h : HandlerState) (sg : Sig) :
    (h.exitLock = true → h.handleSignal sg = (h, [])) ∧
    (h.exitLock = false →
      h.handleSignal sg =
        ((if isTermSig sg then (h.exit 0 et.signal (some sg)).1 else h),
         (match lookupSig h.hookMap sg with
          | some hk => [Ev.hookExec hk ⟨some sg, isTermSig sg, et.signal, 0⟩]
          | none => []) ++
         (if isTermSig sg then (h.exit 0 et.signal (some sg)).2 else []))) := by
  refine ⟨handleSignal_of_locked h sg, ?_⟩
  intro hl
  cases hts : isTermSig sg <;> cases hlk : lookupSig h.hookMap sg <;>
    simp [HandlerState.handleSignal, hl, hts, hlk]

theorem handleSignal_spec_witness :
    (lockedHandler.handleSignal Sig.int = (lockedHandler, [])) ∧
    (exitReadyHandler.handleSignal Sig.term =
      ((if isTermSig Sig.term then
          (exitReadyHandler.exit 0 et.signal (some Sig.term)).1
        else exitReadyHandler),
       (match lookupSig exitReadyHandler.hookMap Sig.term with
        | some hk => [Ev.hookExec hk
            ⟨some Sig.term, isTermSig Sig.term, et.signal, 0⟩]
        | none => []) ++
       (if isTermSig Sig.term then
          (exitReadyHandler.exit 0 et.signal (some Sig.term)).2
        else []))) :=
  ⟨(handleSignal_spec lockedHandler Sig.int).1 rfl,
   (handleSignal_spec exitReadyHandler Sig.term).2 rfl⟩

/-- C8: `Gets` and `GetsExit` always return a hook: when one is registered
for the signal (resp. as the exit hook) they return it and leave the state
untouched; otherwise they create the default hook, register it, and return
it. -/
theorem gets_lazily_creates (h : HandlerState) (sg : Sig) :
    ((h.GetsExit).1.isSome = true) ∧
    ((h.Gets sg).1.isSome = true) ∧
    (∀ hk, h.exitHook = some hk → h.GetsExit = (some hk, h)) ∧
    (h.exitHook = none →
      (h.GetsExit).1 = some (NewHook "exit" "Handle program exit") ∧
      (h.GetsExit).2.exitHook = some (NewHook "exit" "Handle program exit")) ∧
    (∀ hk, lookupSig h.hookMap sg = some hk → h.Gets sg = (some hk, h)) ∧
    (lookupSig h.hookMap sg = none →
      (h.Gets sg).1 = some (defaultSignalHook sg) ∧
      (h.Gets sg).2.hookMap = h.hookMap ++ [(sg, defaultSignalHook sg)]) := by
  have hge_some : ∀ hk, h.exitHook = some hk → h.GetsExit = (some hk, h) := by
    intro hk he
    simp [HandlerState.GetsExit, he]
  have hge_none : h.exitHook = none →
      (h.GetsExit).1 = some (NewHook "exit" "Handle program exit") ∧
      (h.GetsExit).2.exitHook = some (NewHook "exit" "Handle program exit") := by
    intro he
    have h2 := setExit_success h (NewHook "exit" "Handle program exit") he
    have hg : h.GetsExit =
        ((h.setExit (some (NewHook "exit" "Handle program exit"))).2.exitHook,
         (h.setExit (some (NewHook "exit" "Handle program exit"))).2) := by
      simp [HandlerState.GetsExit, he]
    rw [hg]
    exact ⟨h2.2.1, h2.2.1⟩
  have hgs_some : ∀ hk, lookupSig h.hookMap sg = some hk →
      h.Gets sg = (some hk, h) := by
    intro hk hlk
    simp [HandlerState.Gets, hlk]
  have hgs_none : lookupSig h.hookMap sg = none →
      (h.Gets sg).1 = some (defaultSignalHook sg) ∧
      (h.Gets sg).2.hookMap = h.hookMap ++ [(sg, defaultSignalHook sg)] := by
    intro hlk
    have h2 := set_success h sg (defaultSignalHook sg) hlk
    have hg : h.Gets sg =
        (lookupSig (h.set sg (some (defaultSignalHook sg))).2.hookMap sg,
         (h.set sg (some (defaultSignalHook sg))).2) := by
      simp [HandlerState.Gets, hlk]
    rw [hg]
    constructor
    · rw [h2.2.1]
      exact lookupSig_append_self h.hookMap sg (defaultSignalHook sg) hlk
    · exact h2.2.1
  refine ⟨?_, ?_, hge_some, hge_none, hgs_some, hgs_none⟩
  · cases he : h.exitHook with
    | some hk => rw [hge_some hk he]; rfl
    | none => rw [(hge_none he).1]; rfl
  · cases hlk : lookupSig h.hookMap sg with
    | some hk => rw [hgs_some hk hlk]; rfl
    | none => rw [(hgs_none hlk).1]; rfl

theorem gets_lazily_creates_witness :
    ((newHandler.GetsExit).1.isSome = true) ∧
    ((newHandler.Gets Sig.term).1 = some (defaultSignalHook Sig.term)) ∧
    ((newHandler.Gets Sig.term).2.hookMap =
      newHandler.hookMap ++ [(Sig.term, defaultSignalHook Sig.term)]) := by
  have k := gets_lazily_creates newHandler Sig.term
  exact ⟨k.1, (k.2.2.2.2.2 rfl).1, (k.2.2.2.2.2 rfl).2⟩

end GoSignal
